import Mathlib

/-!
Verification of the mp3_tagger core (`meta.py`): the track-matching
algorithm and the interactive review engine, shallowly embedded in Lean.
Python strings are modelled as `List Char`; Python exceptions and
assertion failures surface as `Option`/sum-like result types.
-/

namespace Mp3Tagger

/-! ## Character classes and normalization (`meta.py` lines 92-105)

Python's `str.isspace`, `str.lower` and `int` are modelled on the ASCII
range, which is the range these scripts exercise. -/

/-- ASCII whitespace, as recognised by Python's `str.isspace`. -/
def isSpaceChar (ch : Char) : Bool :=
  ch = ' ' || ch = '\t' || ch = '\n' || ch = '\r' || ch = '\x0b' || ch = '\x0c'

/-- `SKIPPABLE_CHARS = '()[]{}-_'` from `meta.py` line 92. -/
def SKIPPABLE_CHARS : List Char := ['(', ')', '[', ']', '{', '}', '-', '_']

/-- `isSkippableChar` from `meta.py` line 94: whitespace or a member of
`SKIPPABLE_CHARS`. -/
def isSkippableChar (ch : Char) : Bool :=
  isSpaceChar ch || SKIPPABLE_CHARS.contains ch

/-- ASCII lowercasing of one character, as Python's `str.lower` does on
the ASCII range. -/
def lowerChar (ch : Char) : Char :=
  if 65 ≤ ch.toNat ∧ ch.toNat ≤ 90 then Char.ofNat (ch.toNat + 32) else ch

/-- `lowercaseSkippedString` from `meta.py` line 98: lowercase the string,
then drop every skippable character. -/
def lowercaseSkippedString (string : List Char) : List Char :=
  (string.map lowerChar).filter (fun ch => !isSkippableChar ch)

/-- `makeSkippedStringMap` from `meta.py` line 103: the indices of the
non-skippable characters, in order. -/
def makeSkippedStringMap (string : List Char) : List Nat :=
  (string.enum.filter (fun e => !isSkippableChar e.2)).map Prod.fst

/-! ## The sliding-window matcher (`meta.py` lines 107-121) -/

/-- The `for offset in range(...)` loop of `matchStrings` (`meta.py`
lines 116-119): slide the pattern over the tail `rest` of the string,
`offset` being the index of `rest`'s head in the full string, and return
the offset of the first window equal to the pattern. -/
def slideMatch (pattern : List Char) : List Char → Nat → Option Nat
  | [], offset => if pattern = [] then some offset else none
  | ch :: rs, offset =>
    if pattern.length ≤ (ch :: rs).length then
      if (ch :: rs).take pattern.length = pattern then some offset
      else slideMatch pattern rs (offset + 1)
    else none

/-- The body of `matchStrings` after its asserts (`meta.py` lines
112-121): `(0,0)` when the pattern is longer than the string or no
window matches, otherwise the first matching offset with the full
pattern length. -/
def matchStringsCore (string pattern : List Char) : Nat × Nat :=
  if string.length < pattern.length then (0, 0)
  else
    match slideMatch pattern string 0 with
    | some offset => (offset, pattern.length)
    | none => (0, 0)

/-- `matchStrings` (`meta.py` lines 107-121) including its two asserts:
`none` models the `AssertionError` raised on an empty string or empty
pattern. -/
def matchStrings (string pattern : List Char) : Option (Nat × Nat) :=
  if 0 < string.length ∧ 0 < pattern.length then some (matchStringsCore string pattern)
  else none

/-! ## Track identification (`meta.py` lines 123-137) -/

/-- The `for trackTitle in tracklist` loop of `identifyTrackFromFilePath`
(`meta.py` lines 129-135), carrying the best candidate
`(bestMatch, bestMatchStart, bestMatchLength)`; a raised
`AssertionError` from `matchStrings` propagates as `none`. -/
def identifyLoop (file : List Char) :
    List (List Char) → Option (List Char) × Nat × Nat → Option (Option (List Char) × Nat × Nat)
  | [], best => some best
  | trackTitle :: rest, best =>
    match matchStrings file (lowercaseSkippedString trackTitle) with
    | none => none
    | some (matchStart, matchLength) =>
      if matchLength > best.2.2 then identifyLoop file rest (some trackTitle, matchStart, matchLength)
      else identifyLoop file rest best

/-- `identifyTrackFromFilePath` (`meta.py` lines 123-137). The `Path`
argument is modelled by its stem string. -/
def identifyTrackFromFilePath (stem : List Char) (tracklist : List (List Char)) :
    Option (Option (List Char) × Nat × Nat) :=
  identifyLoop (lowercaseSkippedString stem) tracklist (none, 0, 0)

/-- The same loop under the assumption that every `matchStrings` call
succeeds (its asserts hold); used to reason about the successful runs of
`identifyLoop`. -/
def identifyGo (file : List Char) :
    List (List Char) → Option (List Char) × Nat × Nat → Option (List Char) × Nat × Nat
  | [], best => best
  | trackTitle :: rest, best =>
    let m := matchStringsCore file (lowercaseSkippedString trackTitle)
    if m.2 > best.2.2 then identifyGo file rest (some trackTitle, m.1, m.2)
    else identifyGo file rest best

/-! ## Span translation (`meta.py` lines 139-144) -/

/-- `splitMatchedString` (`meta.py` lines 139-144): translate a match
span on the normalized string back to original coordinates and cut the
original string into prefix, matched region and suffix. An out-of-range
index-map access (Python `IndexError`) is `none`. -/
def splitMatchedString (string : List Char) (matchStart matchLength : Nat) :
    Option (List Char × List Char × List Char) :=
  let indexMap := makeSkippedStringMap string
  match indexMap.get? matchStart, indexMap.get? (matchStart + matchLength - 1) with
  | some startIdx, some lastIdx =>
    some (string.take startIdx, (string.drop startIdx).take (lastIdx + 1 - startIdx),
      string.drop (lastIdx + 1))
  | _, _ => none

/-! ## Occurrence predicates used to state the matching claims -/

/-- The pattern occurs in `s` at offset `k`: the window of the pattern's
length starting at `k` equals the pattern. -/
def occursAt (s p : List Char) (k : Nat) : Prop :=
  (s.drop k).take p.length = p

instance (s p : List Char) (k : Nat) : Decidable (occursAt s p k) :=
  inferInstanceAs (Decidable (_ = _))

/-- `p` occurs as a contiguous substring of `s`. -/
def occursIn (p s : List Char) : Prop :=
  ∃ pre suf, s = pre ++ p ++ suf

instance (p s : List Char) : Decidable (occursIn p s) :=
  decidable_of_iff (∃ k, k < s.length + 1 ∧ occursAt s p k) (by
    constructor
    · rintro ⟨k, -, h⟩
      refine ⟨s.take k, (s.drop k).drop p.length, ?_⟩
      conv_lhs => rw [← List.take_append_drop k s]
      rw [List.append_assoc]
      congr 1
      conv_lhs => rw [← List.take_append_drop p.length (s.drop k)]
      rw [h]
    · rintro ⟨pre, suf, rfl⟩
      refine ⟨pre.length, by simp [List.length_append]; omega, ?_⟩
      unfold occursAt
      rw [List.append_assoc, List.drop_left, List.take_left])

/-- Match length of one track title against an (already normalized)
filename, through `matchStringsCore`. -/
def winLen (file t : List Char) : Nat :=
  (matchStringsCore file (lowercaseSkippedString t)).2

/-- The greatest match length any title of the tracklist achieves. -/
def listMaxLen (file : List Char) (tracklist : List (List Char)) : Nat :=
  (tracklist.map (winLen file)).foldr max 0

/-! ## The review engine (`meta.py` lines 181-343)

The console is modelled by the list of input lines still to be read;
everything printed is display-only and not modelled. Python's
exception-based signals (`UserQuit` / `UserCancel` / `UserDone`) become
result constructors. -/

/-- `QUIT = 'q'` (`meta.py` line 181). The signal strings hold single
characters, so Python's substring test `QUIT in signal` is list
membership. -/
def QUIT : Char := 'q'

/-- `CANCEL = 's'` (`meta.py` line 182). -/
def CANCEL : Char := 's'

/-- `DONE = 'd'` (`meta.py` line 183). -/
def DONE : Char := 'd'

/-- `QUIT_CANCEL = QUIT + CANCEL` (`meta.py` line 185). -/
def QUIT_CANCEL : List Char := [QUIT, CANCEL]

/-- `QUIT_DONE = QUIT + DONE` (`meta.py` line 186). -/
def QUIT_DONE : List Char := [QUIT, DONE]

/-- Strip leading and trailing ASCII whitespace, as Python's `int()`
does before parsing. -/
def stripWS (s : List Char) : List Char :=
  ((s.dropWhile isSpaceChar).reverse.dropWhile isSpaceChar).reverse

/-- ASCII decimal digit test. -/
def isDigitChar (ch : Char) : Bool :=
  48 ≤ ch.toNat && ch.toNat ≤ 57

/-- Numeric value of an ASCII digit. -/
def digitVal (ch : Char) : Nat := ch.toNat - 48

/-- Value of a non-empty all-digit string. -/
def digitsToNat (s : List Char) : Option Nat :=
  if s ≠ [] ∧ s.all isDigitChar then
    some (s.foldl (fun acc ch => acc * 10 + digitVal ch) 0)
  else none

/-- Python's `int(response)` on the spellings this program can meet:
optional surrounding whitespace, an optional sign, then decimal digits;
anything else raises `ValueError`, modelled by `none`. (Python also
accepts underscore digit separators and non-ASCII digits; those exotic
spellings are outside this model.) -/
def pythonInt (s : List Char) : Option Int :=
  let t := stripWS s
  if t.head? = some '+' then (digitsToNat t.tail).map (fun n => (n : Int))
  else if t.head? = some '-' then (digitsToNat t.tail).map (fun n => -(n : Int))
  else (digitsToNat t).map (fun n => (n : Int))

/-- Outcome of `promptBoundedInteger`: a valid selection, one of the
`UserCancel` / `UserDone` / `UserQuit` exceptions, or exhausted input
(where the Python loop would block waiting for another line). -/
inductive PromptResult where
  | selected (choice : Int)
  | userCancel
  | userDone
  | userQuit
  | noInput
deriving DecidableEq, Repr

/-- `promptBoundedInteger` (`meta.py` lines 211-238): read lines until
one is a recognized signal or an in-bounds integer; malformed numbers
and out-of-range selections re-prompt. Returns the outcome and the input
lines not yet consumed. -/
def promptBoundedInteger (bounds : Int × Int) (signal : List Char) :
    List (List Char) → PromptResult × List (List Char)
  | [] => (.noInput, [])
  | response :: rest =>
    if response = [] ∧ signal.contains CANCEL then (.userCancel, rest)
    else if response = [] ∧ signal.contains DONE then (.userDone, rest)
    else if response.map lowerChar = [QUIT] ∧ signal.contains QUIT then (.userQuit, rest)
    else
      match pythonInt response with
      | none => promptBoundedInteger bounds signal rest
      | some choice =>
        if choice < bounds.1 ∨ choice > bounds.2 then promptBoundedInteger bounds signal rest
        else (.selected choice, rest)

/-- `FileChanges` (`meta.py` lines 17-21); `path` is modelled by the
file's name string, and the field `match` is rendered `matchSpan`
(`match` is reserved in Lean). -/
structure FileChanges where
  path : List Char
  track : Option (List Char) := none
  matchSpan : Nat × Nat := (0, 0)
deriving DecidableEq, Repr

/-- `AlbumMetadata` (`meta.py` lines 11-15). -/
structure AlbumMetadata where
  artist : List Char
  album : List Char
  tracklist : List (List Char)
deriving DecidableEq, Repr

/-- Outcome of `promptTrackSelect`: the chosen title (`none` removes the
assignment) or a propagated signal. -/
inductive TrackSelectResult where
  | selected (track : Option (List Char))
  | userCancel
  | userDone
  | userQuit
  | noInput
deriving DecidableEq, Repr

/-- `promptTrackSelect` (`meta.py` lines 243-254): bounded choice in
`[0, len(tracklist)]` with quit/cancel signals; `0` removes the title
and `k ≥ 1` picks the `k`-th title, 1-based (the bounds keep
`choice - 1` in range, so `getD`'s default is unreachable). A `UserDone`
cannot arise here since `DONE` is not in the signal string, but as in
Python it would propagate. -/
def promptTrackSelect (tracklist : List (List Char)) (input : List (List Char)) :
    TrackSelectResult × List (List Char) :=
  match promptBoundedInteger (0, (tracklist.length : Int)) QUIT_CANCEL input with
  | (.selected choice, rest) =>
    if choice = 0 then (.selected none, rest)
    else (.selected (some (tracklist.getD (choice.toNat - 1) [])), rest)
  | (.userCancel, rest) => (.userCancel, rest)
  | (.userDone, rest) => (.userDone, rest)
  | (.userQuit, rest) => (.userQuit, rest)
  | (.noInput, rest) => (.noInput, rest)

/-- Result of the review loop: the confirmed change list (`UserDone`
caught), the quit signal propagating to the caller, or exhausted input
(the Python process would still be blocked reading a line). -/
inductive EngineResult where
  | done (fileChanges : List FileChanges)
  | quit
  | outOfInput
deriving DecidableEq, Repr

/-- Default record for the bounds-guarded list access
`fileChanges[choice - 1]`; never reached for in-range selections. -/
def defaultFileChanges : FileChanges := { path := [] }

/-- `promptChanges` (`meta.py` lines 256-278): the Listing/Editing loop.
`fuel` bounds the number of loop iterations (each iteration consumes at
least one input line, so `input.length + 1` is always enough). The
in-place mutations `changes.track = newTrack; changes.match = (0,0)` on
the element `fileChanges[choice - 1]` become a functional list update. -/
def promptChanges (fileChanges : List FileChanges) (tracklist : List (List Char))
    (input : List (List Char)) : Nat → EngineResult
  | 0 => .outOfInput
  | fuel + 1 =>
    match promptBoundedInteger (1, (fileChanges.length : Int)) QUIT_DONE input with
    | (.noInput, _) => .outOfInput
    | (.userQuit, _) => .quit
    | (.userDone, _) => .done fileChanges
    | (.userCancel, rest) => promptChanges fileChanges tracklist rest fuel
    | (.selected choice, rest) =>
      let idx := choice.toNat - 1
      let changes := fileChanges.getD idx defaultFileChanges
      match promptTrackSelect tracklist rest with
      | (.selected newTrack, rest') =>
        promptChanges
          (fileChanges.set idx { changes with track := newTrack, matchSpan := (0, 0) })
          tracklist rest' fuel
      | (.userCancel, rest') => promptChanges fileChanges tracklist rest' fuel
      | (.userDone, _) => .done fileChanges
      | (.userQuit, _) => .quit
      | (.noInput, _) => .outOfInput

/-- One ID3 tag write performed by `saveChanges` (`meta.py` lines
286-293). -/
structure TagWrite where
  path : List Char
  artist : List Char
  albumartist : List Char
  album : List Char
  title : List Char
  tracknumber : List Char
deriving DecidableEq, Repr

/-- `saveChanges` (`meta.py` lines 280-293) as the list of tag writes it
performs; entries with `track = None` are left untouched. Python's
`list.index` is modelled by `indexOf` (the track-membership invariant
keeps the `ValueError` path unreachable). -/
def saveChanges (fileChanges : List FileChanges) (album : AlbumMetadata) : List TagWrite :=
  fileChanges.filterMap fun changes =>
    match changes.track with
    | none => none
    | some track =>
      some { path := changes.path, artist := album.artist, albumartist := album.artist,
             album := album.album, title := track,
             tracknumber := (Nat.repr (album.tracklist.indexOf track + 1)).data }

/-- The review-then-save tail of `main` (`meta.py` lines 333-343): on
`Done` the confirmed list is written; on `Quit` the handler returns
before `saveChanges`, so nothing is written (likewise on exhausted
input, where the process is still blocked at a prompt). -/
def runReview (fileChanges : List FileChanges) (album : AlbumMetadata)
    (input : List (List Char)) (fuel : Nat) : List TagWrite :=
  match promptChanges fileChanges album.tracklist input fuel with
  | .done confirmed => saveChanges confirmed album
  | .quit => []
  | .outOfInput => []

/-- Data-model invariant for C9: a proposed track, when present, is a
member of the album's tracklist. -/
def trackInv (tracklist : List (List Char)) (e : FileChanges) : Prop :=
  e.track = none ∨ ∃ t ∈ tracklist, e.track = some t

instance (tracklist : List (List Char)) (e : FileChanges) : Decidable (trackInv tracklist e) :=
  inferInstanceAs (Decidable (_ ∨ _))

/-! ## Lemmas about the occurrence predicates -/

theorem occursAt_length_le {s p : List Char} {k : Nat} (h : occursAt s p k) :
    p.length ≤ s.length - k := by
  have := congrArg List.length h
  simp [List.length_take, List.length_drop] at this
  omega

theorem occursIn_iff_occursAt {p s : List Char} :
    occursIn p s ↔ ∃ k, occursAt s p k := by
  constructor
  · rintro ⟨pre, suf, rfl⟩
    refine ⟨pre.length, ?_⟩
    unfold occursAt
    rw [List.append_assoc, List.drop_left, List.take_left]
  · rintro ⟨k, h⟩
    refine ⟨s.take k, (s.drop k).drop p.length, ?_⟩
    conv_lhs => rw [← List.take_append_drop k s]
    rw [List.append_assoc]
    congr 1
    conv_lhs => rw [← List.take_append_drop p.length (s.drop k)]
    rw [h]

/-! ## Lemmas about the sliding-window scan -/

theorem slideMatch_none {p : List Char} (hp : p ≠ []) :
    ∀ (rest : List Char) (o : Nat), slideMatch p rest o = none →
      ∀ j, (rest.drop j).take p.length ≠ p := by
  intro rest
  induction rest with
  | nil =>
    intro o _ j
    simp only [List.drop_nil, List.take_nil]
    exact fun h => hp h.symm
  | cons ch rs ih =>
    intro o hnone j
    rw [slideMatch] at hnone
    by_cases hlen : p.length ≤ (ch :: rs).length
    · rw [if_pos hlen] at hnone
      by_cases hwin : (ch :: rs).take p.length = p
      · rw [if_pos hwin] at hnone; exact absurd hnone (by simp)
      · rw [if_neg hwin] at hnone
        match j with
        | 0 => simpa using hwin
        | j + 1 => simpa using ih (o + 1) hnone j
    · intro hocc
      have := congrArg List.length hocc
      simp only [List.length_take, List.length_drop] at this
      omega

theorem slideMatch_some {p : List Char} :
    ∀ (rest : List Char) (o r : Nat), slideMatch p rest o = some r →
      ∃ j, r = o + j ∧ (rest.drop j).take p.length = p ∧
        ∀ j' < j, (rest.drop j').take p.length ≠ p := by
  intro rest
  induction rest with
  | nil =>
    intro o r hsome
    rw [slideMatch] at hsome
    by_cases hp : p = []
    · rw [if_pos hp] at hsome
      refine ⟨0, by simpa using hsome.symm, by simp [hp], by omega⟩
    · rw [if_neg hp] at hsome; exact absurd hsome (by simp)
  | cons ch rs ih =>
    intro o r hsome
    rw [slideMatch] at hsome
    by_cases hlen : p.length ≤ (ch :: rs).length
    · rw [if_pos hlen] at hsome
      by_cases hwin : (ch :: rs).take p.length = p
      · rw [if_pos hwin] at hsome
        refine ⟨0, by simpa using hsome.symm, by simpa using hwin, by omega⟩
      · rw [if_neg hwin] at hsome
        obtain ⟨j, hj, hocc, hmin⟩ := ih (o + 1) r hsome
        refine ⟨j + 1, by omega, by simpa using hocc, ?_⟩
        intro j' hj'
        match j' with
        | 0 => simpa using hwin
        | j' + 1 => simpa using hmin j' (by omega)
    · rw [if_neg hlen] at hsome; exact absurd hsome (by simp)

/-! ## Lemmas about `matchStringsCore` -/

theorem matchStringsCore_of_not_occurs {s p : List Char}
    (h : ∀ k, ¬ occursAt s p k) : matchStringsCore s p = (0, 0) := by
  rw [matchStringsCore]
  by_cases hlen : s.length < p.length
  · rw [if_pos hlen]
  · rw [if_neg hlen]
    match hsm : slideMatch p s 0 with
    | none => rfl
    | some r =>
      obtain ⟨j, _, hocc, _⟩ := slideMatch_some s 0 r hsm
      exact absurd hocc (h j)

theorem matchStringsCore_first {s p : List Char} (hp : p ≠ []) {k : Nat}
    (h : occursAt s p k) :
    ∃ o, matchStringsCore s p = (o, p.length) ∧ occursAt s p o ∧
      ∀ j < o, ¬ occursAt s p j := by
  have hple : p.length ≤ s.length := le_trans (occursAt_length_le h) (Nat.sub_le _ _)
  rw [matchStringsCore, if_neg (by omega)]
  match hsm : slideMatch p s 0 with
  | none => exact absurd h (slideMatch_none hp s 0 hsm k)
  | some r =>
    obtain ⟨j, hj, hocc, hmin⟩ := slideMatch_some s 0 r hsm
    have hjr : j = r := by omega
    rw [hjr] at hocc hmin
    exact ⟨r, rfl, hocc, hmin⟩

theorem matchStringsCore_len (s p : List Char) :
    (matchStringsCore s p).2 = 0 ∨
      ((matchStringsCore s p).2 = p.length ∧ p.length ≤ s.length) := by
  rw [matchStringsCore]
  by_cases hlen : s.length < p.length
  · rw [if_pos hlen]; left; rfl
  · rw [if_neg hlen]
    match slideMatch p s 0 with
    | none => left; rfl
    | some r => right; exact ⟨rfl, by omega⟩

/-! ## Lemmas about the identification loop -/

theorem le_listMaxLen {file : List Char} {tl : List (List Char)} {t : List Char}
    (ht : t ∈ tl) : winLen file t ≤ listMaxLen file tl := by
  induction tl with
  | nil => cases ht
  | cons hd rest ih =>
    rcases List.mem_cons.1 ht with rfl | hmem
    · exact le_max_left _ _
    · exact le_trans (ih hmem) (le_max_right _ _)

theorem identifyLoop_eq_go (file : List Char) :
    ∀ (tl : List (List Char)) (best : Option (List Char) × Nat × Nat),
      0 < file.length → (∀ t ∈ tl, 0 < (lowercaseSkippedString t).length) →
      identifyLoop file tl best = some (identifyGo file tl best) := by
  intro tl
  induction tl with
  | nil => intro best _ _; rfl
  | cons t rest ih =>
    intro best hfile htl
    have hmt : matchStrings file (lowercaseSkippedString t) =
        some (matchStringsCore file (lowercaseSkippedString t)) := by
      rw [matchStrings, if_pos ⟨hfile, htl t (List.mem_cons_self t rest)⟩]
    simp only [identifyLoop, identifyGo, hmt]
    by_cases hc : (matchStringsCore file (lowercaseSkippedString t)).2 > best.2.2
    · simp only [if_pos hc]
      exact ih _ hfile (fun t' ht' => htl t' (List.mem_cons_of_mem t ht'))
    · simp only [if_neg hc]
      exact ih _ hfile (fun t' ht' => htl t' (List.mem_cons_of_mem t ht'))

theorem identifyGo_const (file : List Char) :
    ∀ (tl : List (List Char)) (bm : Option (List Char)) (bs bl : Nat),
      (∀ t ∈ tl, winLen file t ≤ bl) →
      identifyGo file tl (bm, bs, bl) = (bm, bs, bl) := by
  intro tl
  induction tl with
  | nil => intro bm bs bl _; rfl
  | cons t rest ih =>
    intro bm bs bl h
    have hle : (matchStringsCore file (lowercaseSkippedString t)).2 ≤ bl :=
      h t (List.mem_cons_self t rest)
    simp only [identifyGo]
    rw [if_neg (by omega)]
    exact ih bm bs bl (fun t' ht' => h t' (List.mem_cons_of_mem t ht'))

theorem identifyGo_cases (file : List Char) :
    ∀ (tl : List (List Char)) (best : Option (List Char) × Nat × Nat),
      identifyGo file tl best = best ∨
        ∃ t ∈ tl, identifyGo file tl best =
          (some t, matchStringsCore file (lowercaseSkippedString t)) := by
  intro tl
  induction tl with
  | nil => intro best; left; rfl
  | cons t rest ih =>
    intro best
    simp only [identifyGo]
    split
    · right
      rcases ih (some t, (matchStringsCore file (lowercaseSkippedString t)).1,
          (matchStringsCore file (lowercaseSkippedString t)).2) with h | ⟨t', ht', h⟩
      · exact ⟨t, List.mem_cons_self t rest, h⟩
      · exact ⟨t', List.mem_cons_of_mem t ht', h⟩
    · rcases ih best with h | ⟨t', ht', h⟩
      · left; exact h
      · right; exact ⟨t', List.mem_cons_of_mem t ht', h⟩

theorem identifyGo_argmax (file : List Char) :
    ∀ (tl : List (List Char)) (bm : Option (List Char)) (bs bl : Nat),
      bl < listMaxLen file tl →
      ∃ i : Fin tl.length,
        identifyGo file tl (bm, bs, bl) =
          (some (tl.get i), matchStringsCore file (lowercaseSkippedString (tl.get i))) ∧
        winLen file (tl.get i) = listMaxLen file tl ∧
        ∀ j (hj : j < i.1), winLen file (tl.get ⟨j, lt_trans hj i.2⟩) < listMaxLen file tl := by
  intro tl
  induction tl with
  | nil => intro bm bs bl h; simp [listMaxLen] at h
  | cons t rest ih =>
    intro bm bs bl h
    have hmax : listMaxLen file (t :: rest) = max (winLen file t) (listMaxLen file rest) := rfl
    have hw : (matchStringsCore file (lowercaseSkippedString t)).2 = winLen file t := rfl
    by_cases hc : winLen file t > bl
    · by_cases hr : listMaxLen file rest ≤ winLen file t
      · have hM : listMaxLen file (t :: rest) = winLen file t := by rw [hmax]; omega
        refine ⟨⟨0, by simp⟩, ?_, ?_, ?_⟩
        · simp only [identifyGo]
          rw [hw, if_pos hc]
          exact identifyGo_const file rest (some t) _ _
            (fun t' ht' => le_trans (le_listMaxLen ht') hr)
        · rw [hM]; rfl
        · intro j hj; exact absurd hj (Nat.not_lt_zero j)
      · push_neg at hr
        have hM : listMaxLen file (t :: rest) = listMaxLen file rest := by rw [hmax]; omega
        obtain ⟨i, hres, hach, hlt⟩ :=
          ih (some t) (matchStringsCore file (lowercaseSkippedString t)).1 (winLen file t) hr
        refine ⟨⟨i.1 + 1, Nat.succ_lt_succ i.2⟩, ?_, ?_, ?_⟩
        · simp only [identifyGo]
          rw [hw, if_pos hc]
          exact hres
        · rw [hM]; exact hach
        · intro j hj
          have hj' : j < i.1 + 1 := hj
          match j with
          | 0 => rw [hM]; exact hr
          | j + 1 => rw [hM]; exact hlt j (by omega)
    · have hr' : bl < listMaxLen file rest := by rw [hmax] at h; omega
      have hM : listMaxLen file (t :: rest) = listMaxLen file rest := by
        rw [hmax]; omega
      obtain ⟨i, hres, hach, hlt⟩ := ih bm bs bl hr'
      refine ⟨⟨i.1 + 1, Nat.succ_lt_succ i.2⟩, ?_, ?_, ?_⟩
      · simp only [identifyGo]
        rw [hw, if_neg hc]
        exact hres
      · rw [hM]; exact hach
      · intro j hj
        have hj' : j < i.1 + 1 := hj
        match j with
        | 0 =>
          rw [hM]
          show winLen file t < listMaxLen file rest
          omega
        | j + 1 => rw [hM]; exact hlt j (by omega)

/-! ## Claims about the track matcher -/

/-- C1: for every filename whose normalized stem is non-empty and every
tracklist whose titles all normalize to non-empty strings, if no title's
normalized form occurs as a contiguous substring of the normalized
filename, then `identifyTrackFromFilePath` returns `(None, 0, 0)`. -/
theorem claim_C1 (stem : List Char) (tracklist : List (List Char))
    (hstem : lowercaseSkippedString stem ≠ [])
    (htl : ∀ t ∈ tracklist, lowercaseSkippedString t ≠ [])
    (hno : ∀ t ∈ tracklist,
      ¬ occursIn (lowercaseSkippedString t) (lowercaseSkippedString stem)) :
    identifyTrackFromFilePath stem tracklist = some (none, 0, 0) := by
  rw [identifyTrackFromFilePath,
    identifyLoop_eq_go _ tracklist _ (List.length_pos.2 hstem)
      (fun t ht => List.length_pos.2 (htl t ht))]
  congr 1
  apply identifyGo_const
  intro t ht
  have hz : matchStringsCore (lowercaseSkippedString stem) (lowercaseSkippedString t)
      = (0, 0) := by
    apply matchStringsCore_of_not_occurs
    intro k hk
    exact hno t ht (occursIn_iff_occursAt.2 ⟨k, hk⟩)
  show (matchStringsCore (lowercaseSkippedString stem) (lowercaseSkippedString t)).2 ≤ 0
  rw [hz]

theorem claim_C1_witness :
    lowercaseSkippedString ['x', 'y'] ≠ [] ∧
      identifyTrackFromFilePath ['x', 'y'] [['a', 'b']] = some (none, 0, 0) :=
  ⟨by decide, claim_C1 ['x', 'y'] [['a', 'b']] (by decide) (by decide) (by decide)⟩

/-- C2: under the non-empty-normalization preconditions, when some title
achieves a positive match length, `identifyTrackFromFilePath` returns the
title with the smallest tracklist index achieving the maximal match
length: every strictly earlier title has a strictly smaller match length,
so a tie on the maximum keeps the first-encountered title (the best
candidate is replaced only on a strictly greater match length). -/
theorem claim_C2 (stem : List Char) (tracklist : List (List Char))
    (hstem : lowercaseSkippedString stem ≠ [])
    (htl : ∀ t ∈ tracklist, lowercaseSkippedString t ≠ [])
    (hpos : 0 < listMaxLen (lowercaseSkippedString stem) tracklist) :
    ∃ i : Fin tracklist.length,
      identifyTrackFromFilePath stem tracklist =
        some (some (tracklist.get i),
          matchStringsCore (lowercaseSkippedString stem)
            (lowercaseSkippedString (tracklist.get i))) ∧
      winLen (lowercaseSkippedString stem) (tracklist.get i) =
        listMaxLen (lowercaseSkippedString stem) tracklist ∧
      ∀ j (hj : j < i.1),
        winLen (lowercaseSkippedString stem) (tracklist.get ⟨j, lt_trans hj i.2⟩) <
          listMaxLen (lowercaseSkippedString stem) tracklist := by
  obtain ⟨i, hres, hach, hlt⟩ :=
    identifyGo_argmax (lowercaseSkippedString stem) tracklist none 0 0 hpos
  refine ⟨i, ?_, hach, hlt⟩
  rw [identifyTrackFromFilePath,
    identifyLoop_eq_go _ tracklist _ (List.length_pos.2 hstem)
      (fun t ht => List.length_pos.2 (htl t ht)), hres]

theorem claim_C2_witness :
    0 < listMaxLen (lowercaseSkippedString ['a', 'b', 'c']) [['z'], ['a', 'b']] ∧
      ∃ i : Fin ([['z'], ['a', 'b']] : List (List Char)).length,
        identifyTrackFromFilePath ['a', 'b', 'c'] [['z'], ['a', 'b']] =
          some (some (([['z'], ['a', 'b']] : List (List Char)).get i),
            matchStringsCore (lowercaseSkippedString ['a', 'b', 'c'])
              (lowercaseSkippedString (([['z'], ['a', 'b']] : List (List Char)).get i))) ∧
        winLen (lowercaseSkippedString ['a', 'b', 'c'])
            (([['z'], ['a', 'b']] : List (List Char)).get i) =
          listMaxLen (lowercaseSkippedString ['a', 'b', 'c']) [['z'], ['a', 'b']] ∧
        ∀ j (hj : j < i.1),
          winLen (lowercaseSkippedString ['a', 'b', 'c'])
              (([['z'], ['a', 'b']] : List (List Char)).get ⟨j, lt_trans hj i.2⟩) <
            listMaxLen (lowercaseSkippedString ['a', 'b', 'c']) [['z'], ['a', 'b']] :=
  ⟨by decide, claim_C2 ['a', 'b', 'c'] [['z'], ['a', 'b']] (by decide) (by decide) (by decide)⟩

/-- C4: under the non-empty-normalization preconditions, the match length
returned by the matcher is at most the minimum of the normalized
filename's length and the normalized best-matching track's length, and a
run that selects no track reports length 0 (so a title longer than the
filename can only contribute length 0). -/
theorem claim_C4 (stem : List Char) (tracklist : List (List Char))
    (hstem : lowercaseSkippedString stem ≠ [])
    (htl : ∀ t ∈ tracklist, lowercaseSkippedString t ≠ [])
    (bt : Option (List Char)) (bs bl : Nat)
    (hres : identifyTrackFromFilePath stem tracklist = some (bt, bs, bl)) :
    (bt = none → bl = 0) ∧
      (∀ t, bt = some t →
        bl ≤ min (lowercaseSkippedString stem).length (lowercaseSkippedString t).length) ∧
      ∀ t ∈ tracklist,
        (lowercaseSkippedString stem).length < (lowercaseSkippedString t).length →
        winLen (lowercaseSkippedString stem) t = 0 := by
  rw [identifyTrackFromFilePath,
    identifyLoop_eq_go _ tracklist _ (List.length_pos.2 hstem)
      (fun t ht => List.length_pos.2 (htl t ht))] at hres
  have hgo : identifyGo (lowercaseSkippedString stem) tracklist (none, 0, 0) = (bt, bs, bl) := by
    injection hres
  have hlong : ∀ t ∈ tracklist,
      (lowercaseSkippedString stem).length < (lowercaseSkippedString t).length →
      winLen (lowercaseSkippedString stem) t = 0 := by
    intro t _ hlen
    show (matchStringsCore (lowercaseSkippedString stem) (lowercaseSkippedString t)).2 = 0
    rw [matchStringsCore, if_pos hlen]
  rcases identifyGo_cases (lowercaseSkippedString stem) tracklist (none, 0, 0) with h | ⟨t, ht, h⟩
  · rw [h] at hgo
    simp only [Prod.mk.injEq] at hgo
    obtain ⟨h1, _, h3⟩ := hgo
    refine ⟨fun _ => h3.symm, fun t hbt => ?_, hlong⟩
    rw [← h1] at hbt
    cases hbt
  · rw [h] at hgo
    simp only [Prod.mk.injEq] at hgo
    obtain ⟨h1, h3⟩ := hgo
    have hbl : (matchStringsCore (lowercaseSkippedString stem) (lowercaseSkippedString t)).2 = bl :=
      congrArg Prod.snd h3
    refine ⟨?_, ?_, hlong⟩
    · intro hbt
      rw [hbt] at h1
      cases h1
    · intro t' hbt
      rw [hbt] at h1
      have htt : t = t' := by injection h1
      subst htt
      rcases matchStringsCore_len (lowercaseSkippedString stem) (lowercaseSkippedString t)
        with hlen | ⟨hlen, hle⟩ <;> omega

theorem claim_C4_witness :
    ((some ['a', 'b'] : Option (List Char)) = none → 2 = 0) ∧
      (∀ t, (some ['a', 'b'] : Option (List Char)) = some t →
        2 ≤ min (lowercaseSkippedString ['a', 'b']).length (lowercaseSkippedString t).length) ∧
      ∀ t ∈ [['a', 'b']],
        (lowercaseSkippedString ['a', 'b']).length < (lowercaseSkippedString t).length →
        winLen (lowercaseSkippedString ['a', 'b']) t = 0 :=
  claim_C4 ['a', 'b'] [['a', 'b']] (by decide) (by decide) (some ['a', 'b']) 0 2 (by decide)

/-- C10: for every non-empty string and non-empty pattern such that the
pattern occurs as a contiguous substring of the string, `matchStrings`
returns the smallest offset at which the pattern occurs, together with
length equal to the full pattern length. -/
theorem claim_C10 (s p : List Char) (hs : s ≠ []) (hp : p ≠ []) (hocc : occursIn p s) :
    ∃ o, matchStrings s p = some (o, p.length) ∧ occursAt s p o ∧
      ∀ j < o, ¬ occursAt s p j := by
  obtain ⟨k, hk⟩ := occursIn_iff_occursAt.1 hocc
  obtain ⟨o, hcore, ho, hmin⟩ := matchStringsCore_first hp hk
  refine ⟨o, ?_, ho, hmin⟩
  rw [matchStrings, if_pos ⟨List.length_pos.2 hs, List.length_pos.2 hp⟩, hcore]

theorem claim_C10_witness :
    occursIn ['a', 'b'] ['x', 'a', 'b', 'a', 'b'] ∧
      ∃ o, matchStrings ['x', 'a', 'b', 'a', 'b'] ['a', 'b'] =
          some (o, (['a', 'b'] : List Char).length) ∧
        occursAt ['x', 'a', 'b', 'a', 'b'] ['a', 'b'] o ∧
        ∀ j < o, ¬ occursAt ['x', 'a', 'b', 'a', 'b'] ['a', 'b'] j :=
  ⟨by decide,
    claim_C10 ['x', 'a', 'b', 'a', 'b'] ['a', 'b'] (by decide) (by decide) (by decide)⟩

/-- C3 (code bug): with filename stem `"ab"` (non-empty normalized form)
and tracklist `["--"]`, whose only title consists of skippable characters
and normalizes to the empty string, the matcher does not complete: the
call `matchStrings(file, "")` fails its `assert len(pattern) > 0`
(`meta.py` line 110), and the `AssertionError` (modelled by `none`)
propagates out of `identifyTrackFromFilePath`, contrary to the claim
that the zero-length pattern search returns no match rather than
failing. -/
theorem claim_C3_assert_failure :
    lowercaseSkippedString ['a', 'b'] ≠ [] ∧
      lowercaseSkippedString ['-', '-'] = [] ∧
      matchStrings (lowercaseSkippedString ['a', 'b']) (lowercaseSkippedString ['-', '-']) =
        none ∧
      identifyTrackFromFilePath ['a', 'b'] [['-', '-']] = none := by
  decide

/-! ## Claims about span translation -/

theorem makeSkippedStringMap_sublist (s : List Char) :
    List.Sublist (makeSkippedStringMap s) (List.range s.length) := by
  have h0 : List.Sublist (s.enum.filter (fun e => !isSkippableChar e.2)) s.enum :=
    List.filter_sublist s.enum
  have h := h0.map Prod.fst
  rw [List.enum_map_fst] at h
  exact h

theorem makeSkippedStringMap_pairwise (s : List Char) :
    (makeSkippedStringMap s).Pairwise (· < ·) :=
  List.Pairwise.sublist (makeSkippedStringMap_sublist s) (List.pairwise_lt_range s.length)

theorem makeSkippedStringMap_mono {s : List Char} {i j : Nat} (hij : i ≤ j)
    (hj : j < (makeSkippedStringMap s).length) :
    (makeSkippedStringMap s).get ⟨i, lt_of_le_of_lt hij hj⟩ ≤
      (makeSkippedStringMap s).get ⟨j, hj⟩ := by
  rcases eq_or_lt_of_le hij with rfl | hlt
  · exact le_refl _
  · exact le_of_lt
      (List.pairwise_iff_get.1 (makeSkippedStringMap_pairwise s) ⟨i, _⟩ ⟨j, _⟩ hlt)

/-- C5: for every string and every match span `(start, length)` with
`length ≥ 1` and `start + length - 1` a valid index into the
skipped-string index map, `splitMatchedString` succeeds and its three
pieces concatenate back to the original string exactly. -/
theorem claim_C5 (s : List Char) (matchStart matchLength : Nat)
    (hlen : 1 ≤ matchLength)
    (hvalid : matchStart + matchLength - 1 < (makeSkippedStringMap s).length) :
    ∃ pre mid post, splitMatchedString s matchStart matchLength = some (pre, mid, post) ∧
      pre ++ mid ++ post = s := by
  have hstart : matchStart < (makeSkippedStringMap s).length := by omega
  have h1 : (makeSkippedStringMap s).get? matchStart =
      some ((makeSkippedStringMap s).get ⟨matchStart, hstart⟩) := List.get?_eq_get hstart
  have h2 : (makeSkippedStringMap s).get? (matchStart + matchLength - 1) =
      some ((makeSkippedStringMap s).get ⟨matchStart + matchLength - 1, hvalid⟩) :=
    List.get?_eq_get hvalid
  simp only [splitMatchedString]
  rw [h1, h2]
  refine ⟨_, _, _, rfl, ?_⟩
  set a := (makeSkippedStringMap s).get ⟨matchStart, hstart⟩ with ha
  set b := (makeSkippedStringMap s).get ⟨matchStart + matchLength - 1, hvalid⟩ with hb
  have hab : a ≤ b := makeSkippedStringMap_mono (by omega) hvalid
  conv_rhs => rw [← List.take_append_drop a s]
  rw [List.append_assoc]
  congr 1
  conv_rhs => rw [← List.take_append_drop (b + 1 - a) (s.drop a)]
  congr 1
  rw [List.drop_drop]
  congr 1
  omega

theorem claim_C5_witness :
    1 ≤ 2 ∧
      ∃ pre mid post, splitMatchedString ['a', '-', 'b'] 0 2 = some (pre, mid, post) ∧
        pre ++ mid ++ post = ['a', '-', 'b'] :=
  ⟨by decide, claim_C5 ['a', '-', 'b'] 0 2 (by decide) (by decide)⟩

/-! ## Lemmas about the prompt primitives -/

theorem pythonInt_nil : pythonInt [] = none := by decide

theorem pythonInt_ne_nil {s : List Char} {n : Int} (h : pythonInt s = some n) : s ≠ [] := by
  intro hs
  subst hs
  rw [pythonInt_nil] at h
  cases h

theorem lowerChar_of_digit {c : Char} (h : isDigitChar c = true) : lowerChar c = c := by
  simp only [isDigitChar, Bool.and_eq_true, decide_eq_true_eq] at h
  rw [lowerChar, if_neg (by omega)]

theorem pythonInt_of_lower_q {s : List Char} (h : s.map lowerChar = [QUIT]) :
    pythonInt s = none := by
  cases s with
  | nil => simp at h
  | cons c s' =>
    cases s' with
    | cons d s'' => simp at h
    | nil =>
      have hc : lowerChar c = QUIT := by simpa using h
      by_cases hsp : isSpaceChar c = true
      · have hst : stripWS [c] = [] := by simp [stripWS, List.dropWhile, hsp]
        simp only [pythonInt, hst]
        decide
      · have hst : stripWS [c] = [c] := by
          simp [stripWS, List.dropWhile, hsp]
        simp only [pythonInt, hst]
        by_cases hplus : c = '+'
        · subst hplus; exact absurd hc (by decide)
        · by_cases hminus : c = '-'
          · subst hminus; exact absurd hc (by decide)
          · rw [if_neg (by simp [hplus]), if_neg (by simp [hminus])]
            have hd : isDigitChar c = false := by
              by_contra hcon
              rw [Bool.not_eq_false] at hcon
              rw [lowerChar_of_digit hcon] at hc
              subst hc
              exact absurd hcon (by decide)
            rw [digitsToNat, if_neg (by simp [hd])]
            rfl

/-- In-range selections really are in range: `promptBoundedInteger` only
returns `selected n` with `bounds.1 ≤ n ≤ bounds.2`. -/
theorem promptBoundedInteger_selected_bounds {bounds : Int × Int} {signal : List Char}
    {n : Int} {rest : List (List Char)} :
    ∀ input, promptBoundedInteger bounds signal input = (.selected n, rest) →
      bounds.1 ≤ n ∧ n ≤ bounds.2 := by
  intro input
  induction input with
  | nil => intro h; simp [promptBoundedInteger] at h
  | cons response tail ih =>
    intro h
    rw [promptBoundedInteger] at h
    split at h
    · simp at h
    · split at h
      · simp at h
      · split at h
        · simp at h
        · match hpi : pythonInt response with
          | none => rw [hpi] at h; exact ih h
          | some choice =>
            simp only [hpi] at h
            by_cases hrange : choice < bounds.1 ∨ choice > bounds.2
            · rw [if_pos hrange] at h; exact ih h
            · rw [if_neg hrange] at h
              simp only [Prod.mk.injEq, PromptResult.selected.injEq] at h
              obtain ⟨rfl, -⟩ := h
              omega

/-- An empty line under the `QUIT_DONE` signal raises `UserDone`
immediately. -/
theorem promptBoundedInteger_empty_done (bounds : Int × Int) (rest : List (List Char)) :
    promptBoundedInteger bounds QUIT_DONE ([] :: rest) = (.userDone, rest) := by
  rw [promptBoundedInteger, if_neg (by decide), if_pos (by decide)]

/-- A line whose lowercase form is `"q"` raises `UserQuit` at any prompt
whose signal admits quitting. -/
theorem promptBoundedInteger_quit (bounds : Int × Int) (signal line : List Char)
    (rest : List (List Char)) (hq : line.map lowerChar = [QUIT])
    (hsig : signal.contains QUIT = true) :
    promptBoundedInteger bounds signal (line :: rest) = (.userQuit, rest) := by
  have hne : line ≠ [] := by
    intro hnil
    subst hnil
    simp at hq
  rw [promptBoundedInteger, if_neg (fun hc => hne hc.1), if_neg (fun hc => hne hc.1),
    if_pos ⟨hq, hsig⟩]

/-- A line parsing to an in-bounds integer is accepted as the selection. -/
theorem promptBoundedInteger_sel (lo hi : Int) (signal line : List Char)
    (rest : List (List Char)) (n : Int) (hn : pythonInt line = some n)
    (hlow : lo ≤ n) (hhigh : n ≤ hi) :
    promptBoundedInteger (lo, hi) signal (line :: rest) = (.selected n, rest) := by
  have hne : line ≠ [] := pythonInt_ne_nil hn
  have hnq : ¬(line.map lowerChar = [QUIT] ∧ signal.contains QUIT = true) := by
    rintro ⟨hql, -⟩
    rw [pythonInt_of_lower_q hql] at hn
    cases hn
  rw [promptBoundedInteger, if_neg (fun hc => hne hc.1), if_neg (fun hc => hne hc.1),
    if_neg hnq]
  simp only [hn]
  have hcond : ¬(n < (lo, hi).1 ∨ n > (lo, hi).2) := by
    show ¬(n < lo ∨ n > hi)
    omega
  rw [if_neg hcond]

/-- Any track returned by `promptTrackSelect` is `none` or a member of
the tracklist. -/
theorem promptTrackSelect_selected_mem {tracklist : List (List Char)}
    {input rest : List (List Char)} {tsel : Option (List Char)}
    (h : promptTrackSelect tracklist input = (.selected tsel, rest)) :
    tsel = none ∨ ∃ t ∈ tracklist, tsel = some t := by
  rw [promptTrackSelect] at h
  match hpb : promptBoundedInteger (0, (tracklist.length : Int)) QUIT_CANCEL input with
  | (.selected choice, rest') =>
    obtain ⟨hlow, hhigh⟩ := promptBoundedInteger_selected_bounds input hpb
    simp only [hpb] at h
    by_cases hzero : choice = 0
    · rw [if_pos hzero] at h
      simp only [Prod.mk.injEq, TrackSelectResult.selected.injEq] at h
      left; exact h.1.symm
    · rw [if_neg hzero] at h
      simp only [Prod.mk.injEq, TrackSelectResult.selected.injEq] at h
      right
      have hidx : choice.toNat - 1 < tracklist.length := by omega
      refine ⟨tracklist.getD (choice.toNat - 1) [], ?_, h.1.symm⟩
      rw [List.getD_eq_getElem _ _ hidx]
      exact List.getElem_mem hidx
  | (.userCancel, rest') => simp only [hpb] at h; simp at h
  | (.userDone, rest') => simp only [hpb] at h; simp at h
  | (.userQuit, rest') => simp only [hpb] at h; simp at h
  | (.noInput, rest') => simp only [hpb] at h; simp at h

/-- An empty line at the Listing prompt finishes the loop, handing the
change list back unchanged (shared kernel of C7 and C8). -/
theorem promptChanges_empty_done (fileChanges : List FileChanges)
    (tracklist : List (List Char)) (rest : List (List Char)) (fuel : Nat) :
    promptChanges fileChanges tracklist ([] :: rest) (fuel + 1) = .done fileChanges := by
  have h := promptBoundedInteger_empty_done (1, (fileChanges.length : Int)) rest
  simp only [promptChanges, h]

/-- One full Listing-and-Editing round: a valid selection followed by a
valid track choice updates exactly the selected entry and loops. -/
theorem promptChanges_selected {fileChanges : List FileChanges} {tracklist : List (List Char)}
    {input rest rest' : List (List Char)} {choice : Int} {newTrack : Option (List Char)}
    {fuel : Nat}
    (hpb : promptBoundedInteger (1, (fileChanges.length : Int)) QUIT_DONE input =
      (.selected choice, rest))
    (hts : promptTrackSelect tracklist rest = (.selected newTrack, rest')) :
    promptChanges fileChanges tracklist input (fuel + 1) =
      promptChanges
        (fileChanges.set (choice.toNat - 1)
          { fileChanges.getD (choice.toNat - 1) defaultFileChanges with
            track := newTrack, matchSpan := (0, 0) })
        tracklist rest' fuel := by
  simp only [promptChanges, hpb, hts]

/-! ## Claims about the review engine -/

/-- C7: for every change list, an empty input line at the Listing prompt
terminates the Review Engine with `Done`, returning the change list
exactly as it stood when that prompt was entered. -/
theorem claim_C7 (fileChanges : List FileChanges) (tracklist : List (List Char))
    (rest : List (List Char)) (fuel : Nat) :
    promptChanges fileChanges tracklist ([] :: rest) (fuel + 1) = .done fileChanges :=
  promptChanges_empty_done fileChanges tracklist rest fuel

/-- C6: an input line equal to `q` (case-insensitively) at the Listing
prompt, or at the Editing prompt reached through any valid selection,
yields `Quit`, which propagates out of the Review Engine, and on that
path no tag write is performed on any file. -/
theorem claim_C6 (album : AlbumMetadata) (fileChanges : List FileChanges)
    (line : List Char) (rest : List (List Char)) (fuel : Nat)
    (hq : line.map lowerChar = [QUIT]) :
    (promptChanges fileChanges album.tracklist (line :: rest) (fuel + 1) = .quit ∧
      runReview fileChanges album (line :: rest) (fuel + 1) = []) ∧
    ∀ (sel : List Char) (i : Int), pythonInt sel = some i →
      1 ≤ i → i ≤ (fileChanges.length : Int) →
      promptChanges fileChanges album.tracklist (sel :: line :: rest) (fuel + 1) = .quit ∧
        runReview fileChanges album (sel :: line :: rest) (fuel + 1) = [] := by
  have hquit1 : promptChanges fileChanges album.tracklist (line :: rest) (fuel + 1) = .quit := by
    have h := promptBoundedInteger_quit (1, (fileChanges.length : Int)) QUIT_DONE line rest
      hq (by decide)
    simp only [promptChanges, h]
  refine ⟨⟨hquit1, by rw [runReview, hquit1]⟩, ?_⟩
  intro sel i hsel h1 hlen
  have hs := promptBoundedInteger_sel 1 (fileChanges.length : Int) QUIT_DONE sel
    (line :: rest) i hsel h1 hlen
  have hts : promptTrackSelect album.tracklist (line :: rest) = (.userQuit, rest) := by
    have h := promptBoundedInteger_quit (0, (album.tracklist.length : Int)) QUIT_CANCEL line
      rest hq (by decide)
    simp only [promptTrackSelect, h]
  have hquit2 : promptChanges fileChanges album.tracklist (sel :: line :: rest) (fuel + 1) =
      .quit := by
    simp only [promptChanges, hs, hts]
  exact ⟨hquit2, by rw [runReview, hquit2]⟩

theorem claim_C6_witness :
    (['Q'] : List Char).map lowerChar = [QUIT] ∧
      (promptChanges [({ path := ['f'] } : FileChanges)]
          ({ artist := ['a'], album := ['b'], tracklist := [['t']] } : AlbumMetadata).tracklist
          (['Q'] :: []) (0 + 1) = .quit ∧
        runReview [({ path := ['f'] } : FileChanges)]
          { artist := ['a'], album := ['b'], tracklist := [['t']] } (['Q'] :: []) (0 + 1) = []) ∧
      (promptChanges [({ path := ['f'] } : FileChanges)]
          ({ artist := ['a'], album := ['b'], tracklist := [['t']] } : AlbumMetadata).tracklist
          (['1'] :: ['Q'] :: []) (0 + 1) = .quit ∧
        runReview [({ path := ['f'] } : FileChanges)]
          { artist := ['a'], album := ['b'], tracklist := [['t']] } (['1'] :: ['Q'] :: []) (0 + 1) =
          []) := by
  have h := claim_C6 { artist := ['a'], album := ['b'], tracklist := [['t']] }
    [({ path := ['f'] } : FileChanges)] ['Q'] [] 0 (by decide)
  exact ⟨by decide, h.1, h.2 ['1'] 1 (by decide) (by decide) (by decide)⟩

/-- C8: in the Editing state with a tracklist of length `K`, every valid
numeric choice `c ∈ [0, K]` sets the selected entry's track to `None`
when `c = 0` and to the `c`-th tracklist title (1-based) otherwise, and
in both cases resets the entry's match span to the sentinel `(0, 0)`,
after which the loop returns to Listing (here terminated by an empty
line, handing back the updated list). -/
theorem claim_C8 (fileChanges : List FileChanges) (tracklist : List (List Char))
    (s1 s2 : List Char) (rest : List (List Char)) (fuel : Nat) (i c : Nat)
    (hs1 : pythonInt s1 = some (i : Int)) (h1 : 1 ≤ i) (hi : i ≤ fileChanges.length)
    (hs2 : pythonInt s2 = some (c : Int)) (hc : c ≤ tracklist.length) :
    promptChanges fileChanges tracklist (s1 :: s2 :: [] :: rest) (fuel + 1 + 1) =
      .done (fileChanges.set (i - 1)
        { fileChanges.getD (i - 1) defaultFileChanges with
          track := if c = 0 then none else some (tracklist.getD (c - 1) []),
          matchSpan := (0, 0) }) := by
  have hsel1 := promptBoundedInteger_sel 1 (fileChanges.length : Int) QUIT_DONE s1
    (s2 :: [] :: rest) (i : Int) hs1 (by exact_mod_cast h1) (by exact_mod_cast hi)
  have hsel2 := promptBoundedInteger_sel 0 (tracklist.length : Int) QUIT_CANCEL s2
    ([] :: rest) (c : Int) hs2 (by exact_mod_cast Nat.zero_le c) (by exact_mod_cast hc)
  have hts : promptTrackSelect tracklist (s2 :: [] :: rest) =
      (.selected (if c = 0 then none else some (tracklist.getD (c - 1) [])), [] :: rest) := by
    simp only [promptTrackSelect, hsel2]
    by_cases hc0 : c = 0
    · subst hc0; simp
    · rw [if_neg (by exact_mod_cast hc0), if_neg hc0]
      simp
  rw [promptChanges_selected hsel1 hts]
  rw [show ((i : Int).toNat - 1) = i - 1 from by simp]
  exact promptChanges_empty_done _ _ _ _

theorem claim_C8_witness :
    pythonInt ['1'] = some ((1 : Nat) : Int) ∧
      promptChanges [({ path := ['f'] } : FileChanges)] [['t']] (['1'] :: ['1'] :: [] :: [])
          (0 + 1 + 1) =
        .done (([({ path := ['f'] } : FileChanges)]).set (1 - 1)
          { ([({ path := ['f'] } : FileChanges)]).getD (1 - 1) defaultFileChanges with
            track := if (1 : Nat) = 0 then none else some (([[('t' : Char)]]).getD (1 - 1) []),
            matchSpan := (0, 0) }) :=
  ⟨by decide,
    claim_C8 [({ path := ['f'] } : FileChanges)] [['t']] ['1'] ['1'] [] 0 1 1
      (by decide) (by decide) (by decide) (by decide) (by decide)⟩

/-- The track field produced by a successful `identifyLoop` run is the
initial candidate or a member of the traversed tracklist. -/
theorem identifyLoop_track (file : List Char) :
    ∀ (tl : List (List Char)) (best r : Option (List Char) × Nat × Nat),
      identifyLoop file tl best = some r →
      r.1 = best.1 ∨ ∃ t ∈ tl, r.1 = some t := by
  intro tl
  induction tl with
  | nil =>
    intro best r h
    left
    injection h with h'
    rw [← h']
  | cons t rest ih =>
    intro best r h
    match hm : matchStrings file (lowercaseSkippedString t) with
    | none =>
      simp only [identifyLoop, hm] at h
      cases h
    | some m =>
      simp only [identifyLoop, hm] at h
      split at h
      · rcases ih _ _ h with h1 | ⟨t', ht', h1⟩
        · right; exact ⟨t, List.mem_cons_self t rest, h1⟩
        · right; exact ⟨t', List.mem_cons_of_mem t ht', h1⟩
      · rcases ih _ _ h with h1 | ⟨t', ht', h1⟩
        · left; exact h1
        · right; exact ⟨t', List.mem_cons_of_mem t ht', h1⟩

/-- The review loop preserves the track-membership invariant on every
`Done` path. -/
theorem promptChanges_inv (tracklist : List (List Char)) :
    ∀ (fuel : Nat) (input : List (List Char)) (fileChanges confirmed : List FileChanges),
      promptChanges fileChanges tracklist input fuel = .done confirmed →
      (∀ e ∈ fileChanges, trackInv tracklist e) →
      ∀ e ∈ confirmed, trackInv tracklist e := by
  intro fuel
  induction fuel with
  | zero =>
    intro input fc confirmed h _
    simp only [promptChanges] at h
    cases h
  | succ fuel ih =>
    intro input fc confirmed h hinv
    simp only [promptChanges] at h
    match hpb : promptBoundedInteger (1, (fc.length : Int)) QUIT_DONE input with
    | (.noInput, rest) => simp only [hpb] at h; cases h
    | (.userQuit, rest) => simp only [hpb] at h; cases h
    | (.userDone, rest) =>
      simp only [hpb] at h
      injection h with h'
      subst h'
      exact hinv
    | (.userCancel, rest) =>
      simp only [hpb] at h
      exact ih rest fc confirmed h hinv
    | (.selected choice, rest) =>
      simp only [hpb] at h
      match hts : promptTrackSelect tracklist rest with
      | (.selected newTrack, rest') =>
        simp only [hts] at h
        refine ih rest' _ confirmed h ?_
        intro e he
        rcases List.mem_or_eq_of_mem_set he with hmem | rfl
        · exact hinv e hmem
        · rcases promptTrackSelect_selected_mem hts with h0 | ⟨t, ht, h0⟩
          · left; exact h0
          · right; exact ⟨t, ht, h0⟩
      | (.userCancel, rest') =>
        simp only [hts] at h
        exact ih rest' fc confirmed h hinv
      | (.userDone, rest') =>
        simp only [hts] at h
        injection h with h'
        subst h'
        exact hinv
      | (.userQuit, rest') => simp only [hts] at h; cases h
      | (.noInput, rest') => simp only [hts] at h; cases h

/-- C9: the `track` field of a `FileChange` is `None` or a member of the
tracklist, both at creation (the matcher only proposes traversed titles)
and after every Review Engine run (the engine only offers tracklist
entries or "no title"). -/
theorem claim_C9 :
    (∀ (stem : List Char) (tracklist : List (List Char)) (bt : Option (List Char)) (bs bl : Nat),
      identifyTrackFromFilePath stem tracklist = some (bt, bs, bl) →
        bt = none ∨ ∃ t ∈ tracklist, bt = some t) ∧
    (∀ (tracklist : List (List Char)) (fuel : Nat) (input : List (List Char))
        (fileChanges confirmed : List FileChanges),
      promptChanges fileChanges tracklist input fuel = .done confirmed →
      (∀ e ∈ fileChanges, trackInv tracklist e) →
      ∀ e ∈ confirmed, trackInv tracklist e) := by
  constructor
  · intro stem tl bt bs bl h
    rcases identifyLoop_track (lowercaseSkippedString stem) tl (none, 0, 0) (bt, bs, bl) h
      with h1 | ⟨t, ht, h1⟩
    · left; exact h1
    · right; exact ⟨t, ht, h1⟩
  · exact fun tl => promptChanges_inv tl

theorem claim_C9_witness :
    ((some ['t'] : Option (List Char)) = none ∨
        ∃ t ∈ [['t']], (some ['t'] : Option (List Char)) = some t) ∧
      ∀ e ∈ [({ path := ['f'], track := some ['t'] } : FileChanges)], trackInv [['t']] e :=
  ⟨claim_C9.1 ['t'] [['t']] (some ['t']) 0 1 (by decide),
    claim_C9.2 [['t']] 1 [[]] [({ path := ['f'], track := some ['t'] } : FileChanges)]
      [({ path := ['f'], track := some ['t'] } : FileChanges)] (by decide) (by decide)⟩

end Mp3Tagger
